import Mathlib

/-!
Verification of the js13k-graph-builder commit-size evaluation tool.

The development shallowly embeds the two source files:
  - `src/index.js`: the command-line pipeline (`run`, `buildProject`,
    `evaluteBuildSize`, `getCommitList`, `checkoutCommit`, `checkoutBranch`,
    `writeOutput`, `execAsync`) together with the `JSON.stringify` call that
    produces `output.json`;
  - `src/generateReport.js`: the HTML report generator
    (`generateReportFileContents`).

External effects (git, the shell, the filesystem) are modelled by explicit
environments recording, for each commit, whether its checkout succeeds, the
exit codes of the build sub-commands, and the size of the build artifact if
it exists.  JavaScript's `JSON.stringify` (both the 2-space-indented form used
for `output.json` and the compact form used by the report generator) is
modelled by an executable serializer over a JSON value type, together with a
verified parser used to state the report round-trip properties.
-/

namespace GraphBuilder

/-! ### JSON values

JavaScript objects serialized by this program are arrays of flat records whose
fields are strings and non-negative integers (file sizes).  The value type is
a mutual inductive so that structural induction over arrays and objects is
available directly. -/

mutual

inductive JVal : Type where
  | str : String → JVal
  | num : Nat → JVal
  | arr : JArr → JVal
  | obj : JObj → JVal
deriving DecidableEq

inductive JArr : Type where
  | nil : JArr
  | cons : JVal → JArr → JArr
deriving DecidableEq

inductive JObj : Type where
  | nil : JObj
  | cons : String → JVal → JObj → JObj
deriving DecidableEq

end

/-! ### Serialization, after ECMA-262 `JSON.stringify`

`JSON.stringify(v, undefined, 2)` (used at src/index.js:185) serializes with a
two-space `gap`; `JSON.stringify(v)` (used at src/generateReport.js:22)
serializes compactly.  Both are instances of one serializer parameterized by
the `gap` character list, exactly as in the ECMA-262 algorithm: with a
non-empty gap, arrays and objects put every element on its own line indented
by one more gap, and a colon is followed by one space; with an empty gap no
whitespace is emitted at all. -/

/-- Decimal digit character, `digitCh d = '0' + d` for a digit value `d < 10`. -/
def digitCh (d : Nat) : Char := Char.ofNat (48 + d)

/-- Lowercase hexadecimal digit character for `d < 16`, as emitted by the
`\u00XX` escapes of `JSON.stringify`. -/
def hexCh (d : Nat) : Char := if d < 10 then Char.ofNat (48 + d) else Char.ofNat (87 + d)

/-- Decimal digit characters of `n` prepended to `acc`, least significant
digit produced first, so the result reads most significant first; `fuel`
bounds the recursion and any `fuel ≥ n` is enough. -/
def natCharsAux : Nat → Nat → List Char → List Char
  | 0, _, acc => acc
  | fuel + 1, n, acc =>
      if n = 0 then acc
      else natCharsAux fuel (n / 10) (digitCh (n % 10) :: acc)

/-- Decimal digit characters of `n`, most significant first.  Mirrors how
`JSON.stringify` prints the non-negative integers this program produces. -/
def natChars (n : Nat) : List Char :=
  if n = 0 then [digitCh 0] else natCharsAux n n []

/-- JSON escaping of one character, after ECMA-262 `QuoteJSONString`: quote and
backslash get a backslash escape, the named control characters get their short
escapes, the remaining control characters get `\u00XX`, and every other
character stands for itself. -/
def escCh (c : Char) : List Char :=
  if c = '"' then ['\\', '"']
  else if c = '\\' then ['\\', '\\']
  else if c = '\x08' then ['\\', 'b']
  else if c = '\x09' then ['\\', 't']
  else if c = '\x0a' then ['\\', 'n']
  else if c = '\x0c' then ['\\', 'f']
  else if c = '\x0d' then ['\\', 'r']
  else if c.toNat < 32 then ['\\', 'u', '0', '0', hexCh (c.toNat / 16), hexCh (c.toNat % 16)]
  else [c]

/-- Characters of a serialized JSON string literal: quote, escaped body, quote. -/
def strChars (s : String) : List Char :=
  '"' :: ((s.data.map escCh).flatten ++ ['"'])

/-- Newline-plus-indent separator: empty when the gap is empty (compact mode),
otherwise a newline followed by the current indent. -/
def nlInd (gap ind : List Char) : List Char :=
  if gap = [] then [] else '\n' :: ind

/-- Separator after a member key's colon: nothing in compact mode, one space
with a non-empty gap. -/
def colonSep (gap : List Char) : List Char :=
  if gap = [] then [':'] else [':', ' ']

mutual

/-- Characters of the serialization of a value at indent `ind` with gap `gap`. -/
def serVal (gap ind : List Char) : JVal → List Char
  | .str s => strChars s
  | .num n => natChars n
  | .arr a => serArr gap ind a
  | .obj o => serObj gap ind o

/-- Characters of a serialized array. -/
def serArr (gap ind : List Char) : JArr → List Char
  | .nil => ['[', ']']
  | .cons v t =>
      '[' :: (nlInd gap (ind ++ gap) ++ (serVal gap (ind ++ gap) v ++ serArrRest gap ind t))

/-- Characters of an array after its first element: comma-separated further
elements, then the closing bracket on its own (indented) line. -/
def serArrRest (gap ind : List Char) : JArr → List Char
  | .nil => nlInd gap ind ++ [']']
  | .cons v t =>
      ',' :: (nlInd gap (ind ++ gap) ++ (serVal gap (ind ++ gap) v ++ serArrRest gap ind t))

/-- Characters of a serialized object. -/
def serObj (gap ind : List Char) : JObj → List Char
  | .nil => ['\x7b', '\x7d']
  | .cons k v t =>
      '\x7b' :: (nlInd gap (ind ++ gap) ++
        (strChars k ++ (colonSep gap ++ (serVal gap (ind ++ gap) v ++ serObjRest gap ind t))))

/-- Characters of an object after its first member. -/
def serObjRest (gap ind : List Char) : JObj → List Char
  | .nil => nlInd gap ind ++ ['\x7d']
  | .cons k v t =>
      ',' :: (nlInd gap (ind ++ gap) ++
        (strChars k ++ (colonSep gap ++ (serVal gap (ind ++ gap) v ++ serObjRest gap ind t))))

end

/-- Model of `JSON.stringify(v, undefined, 2)`: two-space gap, no indent at top
level (src/index.js:185). -/
def stringifyPretty (v : JVal) : String :=
  String.mk (serVal [' ', ' '] [] v)

/-- Model of compact `JSON.stringify(v)` (src/generateReport.js:22). -/
def stringifyCompact (v : JVal) : String :=
  String.mk (serVal [] [] v)

/-! ### Parsing

A total JSON reader over character lists, used to state the report round-trip
property (`JSON.parse` on the consumer side).  Structural recursion on the
input for strings and digit runs, and on an explicit fuel counter for the
nested value grammar. -/

/-- Whitespace characters skipped between JSON tokens. -/
def wsCh (c : Char) : Bool := c.toNat = 32 || c.toNat = 10 || c.toNat = 9 || c.toNat = 13

/-- Drop leading inter-token whitespace. -/
def dropWs : List Char → List Char
  | c :: cs => if wsCh c then dropWs cs else c :: cs
  | [] => []

/-- Decimal digit test on characters. -/
def isDigitCh (c : Char) : Bool := 48 ≤ c.toNat && c.toNat ≤ 57

/-- Value of a decimal digit character. -/
def digVal (c : Char) : Nat := c.toNat - 48

/-- Split off the longest leading run of decimal digits. -/
def grabDigits : List Char → List Char × List Char
  | c :: cs =>
      if isDigitCh c then
        let p := grabDigits cs
        (c :: p.1, p.2)
      else ([], c :: cs)
  | [] => ([], [])

/-- Numeric value of a big-endian digit-character run. -/
def digitsVal (ds : List Char) : Nat := Nat.ofDigits 10 ((ds.map digVal).reverse)

/-- Read a non-negative integer literal. -/
def readNum (cs : List Char) : Option (Nat × List Char) :=
  match grabDigits cs with
  | ([], _) => none
  | (ds, r) => some (digitsVal ds, r)

/-- Value of one hexadecimal digit character, either case. -/
def hexVal (c : Char) : Option Nat :=
  if 48 ≤ c.toNat ∧ c.toNat ≤ 57 then some (c.toNat - 48)
  else if 97 ≤ c.toNat ∧ c.toNat ≤ 102 then some (c.toNat - 87)
  else if 65 ≤ c.toNat ∧ c.toNat ≤ 70 then some (c.toNat - 55)
  else none

/-- Read a string body after the opening quote, undoing the JSON escapes, up to
and past the closing quote.  Unescaped control characters and invalid escapes
are rejected, as in RFC 8259. -/
def escSub (e : Char) : Option Char :=
  if e = '"' then some '"'
  else if e = '\\' then some '\\'
  else if e = '/' then some '/'
  else if e = 'b' then some '\x08'
  else if e = 't' then some '\x09'
  else if e = 'n' then some '\x0a'
  else if e = 'f' then some '\x0c'
  else if e = 'r' then some '\x0d'
  else none

def hex4 (a b x d : Char) : Option Nat :=
  match hexVal a, hexVal b, hexVal x, hexVal d with
  | some va, some vb, some vx, some vd => some (((va * 16 + vb) * 16 + vx) * 16 + vd)
  | _, _, _, _ => none

mutual

def readStr : List Char → Option (List Char × List Char)
  | [] => none
  | c :: cs =>
      if c = '"' then some ([], cs)
      else if c = '\\' then readEsc cs
      else if c.toNat < 32 then none
      else (readStr cs).map fun p => (c :: p.1, p.2)

def readEsc : List Char → Option (List Char × List Char)
  | [] => none
  | e :: cs2 =>
      if e = 'u' then readUni cs2
      else
        match escSub e with
        | some c2 => (readStr cs2).map fun p => (c2 :: p.1, p.2)
        | none => none

def readUni : List Char → Option (List Char × List Char)
  | h1 :: h2 :: h3 :: h4 :: cs3 =>
      match hex4 h1 h2 h3 h4 with
      | some n =>
          if n < 55296 then (readStr cs3).map fun p => (Char.ofNat n :: p.1, p.2)
          else none
      | none => none
  | _ => none

end

mutual

/-- Read one JSON value (after skipping leading whitespace). -/
def readVal : Nat → List Char → Option (JVal × List Char)
  | 0, _ => none
  | fuel + 1, cs =>
      match dropWs cs with
      | [] => none
      | c :: r =>
          if c = '"' then (readStr r).map fun p => (JVal.str (String.mk p.1), p.2)
          else if c = '[' then
            match dropWs r with
            | [] => none
            | c2 :: r2 =>
                if c2 = ']' then some (.arr .nil, r2)
                else (readItems fuel (c2 :: r2)).map fun p => (JVal.arr p.1, p.2)
          else if c = '\x7b' then
            match dropWs r with
            | [] => none
            | c2 :: r2 =>
                if c2 = '\x7d' then some (.obj .nil, r2)
                else (readMembers fuel (c2 :: r2)).map fun p => (JVal.obj p.1, p.2)
          else if isDigitCh c then (readNum (c :: r)).map fun p => (JVal.num p.1, p.2)
          else none

/-- Read the elements of a non-empty array, up to and past the closing bracket. -/
def readItems : Nat → List Char → Option (JArr × List Char)
  | 0, _ => none
  | fuel + 1, cs =>
      match readVal fuel cs with
      | none => none
      | some (v, r) =>
          match dropWs r with
          | [] => none
          | c :: r2 =>
              if c = ',' then (readItems fuel (dropWs r2)).map fun p => (JArr.cons v p.1, p.2)
              else if c = ']' then some (.cons v .nil, r2)
              else none

/-- Read the members of a non-empty object, up to and past the closing brace. -/
def readMembers : Nat → List Char → Option (JObj × List Char)
  | 0, _ => none
  | fuel + 1, cs =>
      match dropWs cs with
      | [] => none
      | c :: r =>
          if c = '"' then
            match readStr r with
            | none => none
            | some (k, r1) =>
                match dropWs r1 with
                | [] => none
                | c1 :: r2 =>
                    if c1 = ':' then
                      match readVal fuel (dropWs r2) with
                      | none => none
                      | some (v, r3) =>
                          match dropWs r3 with
                          | [] => none
                          | c3 :: r4 =>
                              if c3 = ',' then
                                (readMembers fuel (dropWs r4)).map
                                  fun p => (JObj.cons (String.mk k) v p.1, p.2)
                              else if c3 = '\x7d' then some (.cons (String.mk k) v .nil, r4)
                              else none
                    else none
          else none

end

/-- Parse a complete JSON document: one value and nothing but trailing
whitespace.  Models the consumer-side `JSON.parse` of `output.json`. -/
def parseJson (s : String) : Option JVal :=
  match readVal (s.data.length + 1) s.data with
  | some (v, r) => if dropWs r = [] then some v else none
  | none => none

/-! ### Result records

Shape of one element of the `output` array (src/index.js:301):
`\x7b ...commitInfo, buildSize \x7d`, where `commitInfo` is the latest `git log`
entry of the checked-out commit and `buildSize` is the `fs.statSync` size of
the artifact.  Spread preserves the metadata key order and appends
`buildSize`. -/

structure CommitInfo where
  hash : String
  date : String
  message : String
  refs : String
  body : String
  author_name : String
  author_email : String
deriving DecidableEq

structure EvalResult extends CommitInfo where
  buildSize : Nat
deriving DecidableEq

/-- JSON object for one result record, fields in declared order. -/
def encodeResult (r : EvalResult) : JVal :=
  .obj (.cons "hash" (.str r.hash) (.cons "date" (.str r.date) (.cons "message" (.str r.message)
    (.cons "refs" (.str r.refs) (.cons "body" (.str r.body)
    (.cons "author_name" (.str r.author_name) (.cons "author_email" (.str r.author_email)
    (.cons "buildSize" (.num r.buildSize) .nil))))))))

def encodeList : List EvalResult → JArr
  | [] => .nil
  | r :: t => .cons (encodeResult r) (encodeList t)

/-- JSON array of the ordered result records. -/
def encodeResults (rs : List EvalResult) : JVal := .arr (encodeList rs)

/-- Decode one parsed record back into an `EvalResult`. -/
def decodeResult : JVal → Option EvalResult
  | .obj (.cons "hash" (.str h) (.cons "date" (.str d) (.cons "message" (.str m)
      (.cons "refs" (.str rf) (.cons "body" (.str b)
      (.cons "author_name" (.str an) (.cons "author_email" (.str ae)
      (.cons "buildSize" (.num n) .nil)))))))) =>
      some { hash := h, date := d, message := m, refs := rf, body := b,
             author_name := an, author_email := ae, buildSize := n }
  | _ => none

def decodeArr : JArr → Option (List EvalResult)
  | .nil => some []
  | .cons v t => do
      let r ← decodeResult v
      let l ← decodeArr t
      return r :: l

def decodeResults : JVal → Option (List EvalResult)
  | .arr a => decodeArr a
  | _ => none

/-- Contents of `output.json` as written by `writeOutput` (src/index.js:185):
`JSON.stringify(output, undefined, 2)` of the ordered result array. -/
def toJsonDocument (rs : List EvalResult) : String := stringifyPretty (encodeResults rs)

/-- Consumer-side parse of `output.json` back into the result records. -/
def parseResults (s : String) : Option (List EvalResult) := (parseJson s).bind decodeResults

/-! ### The HTML report generator (src/generateReport.js) -/

/-- Script element interpolated into the template at src/generateReport.js:21-25.
The serialized report data is spliced verbatim (no escaping) into a JavaScript
template literal whose value is passed to `JSON.parse`. -/
def commitDataScript (rs : List EvalResult) : String :=
  "<script>var COMMIT_DATA = JSON.parse(`" ++ stringifyCompact (encodeResults rs)
    ++ "`);</script>"

/-- Modelled from the spec: the fixed HTML template `src/report/index.html` is
not among the sources, and cheerio's `load`/`html` pair is modelled as a split
of the document at the start of the body content whose rendering concatenates
the pieces back unchanged; `parser("body").prepend(x)` inserts `x` at the
start of the body content. -/
structure HtmlDoc where
  beforeBody : String
  bodyInner : String
  afterBody : String

def htmlRender (d : HtmlDoc) : String := d.beforeBody ++ (d.bodyInner ++ d.afterBody)

def bodyPrepend (d : HtmlDoc) (x : String) : HtmlDoc :=
  { d with bodyInner := x ++ d.bodyInner }

/-- Model of `generateReportFileContents` (src/generateReport.js:17-28). -/
def generateReportFileContents (template : HtmlDoc) (reportData : List EvalResult) : String :=
  htmlRender (bodyPrepend template (commitDataScript reportData))

/-! ### JavaScript template-literal evaluation, modelled

The emitted script embeds the JSON document between backticks.  JavaScript
cooks an untagged template literal as follows: a backtick terminates the
literal (the remaining emitted text is then other, broken code), a
dollar-brace opens an interpolation (whose value depends on evaluating the
embedded expression), a backslash starts an escape sequence (invalid escapes
are a syntax error).  The model returns the cooked contents, or `none` when
the cooked value is not determined by the contents alone (early termination,
interpolation, invalid escape). -/

def backtickCh : Char := Char.ofNat 96

def headIsLbrace : List Char → Bool
  | c :: _ => c = '\x7b'
  | [] => false

def hasDollarBrace : List Char → Bool
  | [] => false
  | c :: cs => (c = '$' && headIsLbrace cs) || hasDollarBrace cs

/-- Cooked value of one escape sequence character, after the untagged template
literal rules: the named single-character escapes, `\0`, and identity escapes;
hex and digit escapes return `none` (invalid or not determined here — never
produced by serializing this program's data). -/
def escCooked (e : Char) : Option Char :=
  if e = 'n' then some '\x0a'
  else if e = 't' then some '\x09'
  else if e = 'b' then some '\x08'
  else if e = 'r' then some '\x0d'
  else if e = 'f' then some '\x0c'
  else if e = 'v' then some '\x0b'
  else if e = '0' then some (Char.ofNat 0)
  else if e = 'x' ∨ e = 'u' then none
  else if isDigitCh e then none
  else some e

mutual

def templateCook : List Char → Option (List Char)
  | [] => some []
  | c :: cs =>
      if c = backtickCh then none
      else if c = '$' ∧ headIsLbrace cs = true then none
      else if c = '\\' then cookEsc cs
      else (templateCook cs).map fun l => c :: l

def cookEsc : List Char → Option (List Char)
  | [] => none
  | e :: cs2 =>
      match escCooked e with
      | some ch => (templateCook cs2).map fun l => ch :: l
      | none => none

end

/-- Serializations whose raw and cooked template-literal values agree: no
backtick, no backslash, no dollar-brace. -/
def hasBadChar (bad : Char) : List Char → Bool
  | [] => false
  | c :: cs => c = bad || hasBadChar bad cs

def tplSafe (s : String) : Prop :=
  hasBadChar backtickCh s.data = false ∧ hasBadChar '\\' s.data = false ∧
    hasDollarBrace s.data = false

instance tplSafeDec (s : String) : Decidable (tplSafe s) := by
  unfold tplSafe
  infer_instance

/-- Value bound to `COMMIT_DATA` when the emitted report script runs: the
cooked template literal contents, fed to `JSON.parse`. -/
def commitDataValue (rs : List EvalResult) : Option (List EvalResult) :=
  (templateCook (stringifyCompact (encodeResults rs)).data).bind
    fun cooked => parseResults (String.mk cooked)

/-! ### The pipeline (src/index.js)

External effects are an explicit environment; the `run` model mirrors the
source's control flow, including the absence of any error handler around the
awaited per-commit steps: a rejected promise ends the process, so the
restoration checkout and the report writes happen only after a loop that
finished without error. -/

structure Config where
  zipPath : String
  buildCommand : String
  projectDirectory : String
  outputDirectory : String
  commitLimit : Int
  verbose : Bool
deriving DecidableEq

/-- Build sub-steps of `buildProject` (src/index.js:99-135). -/
inductive BuildStep where
  | clean
  | install
  | build
deriving DecidableEq

/-- Shell commands issued by `buildProject`, in issue order. -/
inductive Cmd where
  | rmrf (dir : String)
  | npmCi
  | sh (c : String)
deriving DecidableEq

/-- Per-tree external build behaviour: whether `node_modules` exists in the
checked-out tree, and the exit codes of `rm -rf node_modules`, `npm ci` and
the caller's build command run there. -/
structure BuildEnv where
  nodeModulesExists : Bool
  rmExit : Nat
  ciExit : Nat
  buildExit : Nat
deriving DecidableEq

/-- Model of `buildProject` (src/index.js:99-135): remove `node_modules` only
if it exists, then `npm ci`, then the caller's command verbatim, each through
`execAsync` (src/index.js:78-86), which rejects exactly on a non-zero exit
code and so aborts the remaining sub-steps.  Returns the commands issued in
order and the first failing step, if any. -/
def rmTrace (benv : BuildEnv) : List Cmd :=
  if benv.nodeModulesExists then [Cmd.rmrf "node_modules"] else []

def buildProject (benv : BuildEnv) (buildCommand : String) : List Cmd × Option BuildStep :=
  if benv.nodeModulesExists ∧ benv.rmExit ≠ 0 then ([Cmd.rmrf "node_modules"], some .clean)
  else if benv.ciExit ≠ 0 then (rmTrace benv ++ [Cmd.npmCi], some .install)
  else if benv.buildExit ≠ 0 then (rmTrace benv ++ [Cmd.npmCi, Cmd.sh buildCommand], some .build)
  else (rmTrace benv ++ [Cmd.npmCi, Cmd.sh buildCommand], none)

inductive RunError where
  | checkoutError (ref : String)
  | buildFailure (step : BuildStep) (ref : String)
  | artifactNotFound (zipPath : String) (ref : String)
  | restoreError (branch : String)
deriving DecidableEq

/-- External environment of one run: the captured branch, the hashes `git log`
reports (newest first), and the per-reference behaviour of checkout, build and
artifact measurement (indexed by the commit checked out when they run). -/
structure Env where
  gitAvailable : Bool
  branch : String
  logHashes : List String
  checkoutOk : String → Bool
  buildEnvAt : String → BuildEnv
  artifactSize : String → Option Nat
  infoAt : String → CommitInfo
  confirmed : Bool

/-- Model of `getCommitList` (src/index.js:143-157): empty when no git tool is
available (a logged soft failure, not a thrown error), else the log hashes. -/
def getCommitList (env : Env) : List String :=
  if env.gitAvailable then env.logHashes else []

/-- Kept prefix of `Array.prototype.splice(start)` (ECMA-262 23.1.3.29): the
array retains the elements before `actualStart`, where a negative `start`
counts from the end and both directions clamp to the array bounds. -/
def spliceKeep (start : Int) (cs : List String) : List String :=
  cs.take (if start < 0 then ((cs.length : Int) + start).toNat else min start.toNat cs.length)

/-- Model of the truncation at src/index.js:268-272: `commitLimit` 0 shows all
commits, otherwise `commits.splice(commitLimit)`. -/
def truncateCommits (limit : Int) (cs : List String) : List String :=
  if limit = 0 then cs else spliceKeep limit cs

/-- Result record for a commit whose checkout, build and measurement all
succeed. -/
def resultOf (env : Env) (c : String) : EvalResult :=
  { toCommitInfo := env.infoAt c, buildSize := (env.artifactSize c).getD 0 }

/-- All per-commit steps succeed for `c`. -/
def commitOk (env : Env) (cfg : Config) (c : String) : Prop :=
  env.checkoutOk c = true ∧ (buildProject (env.buildEnvAt c) cfg.buildCommand).2 = none ∧
    env.artifactSize c ≠ none

instance commitOkDec (env : Env) (cfg : Config) (c : String) : Decidable (commitOk env cfg c) := by
  unfold commitOk
  infer_instance

/-- Model of the `for` loop at src/index.js:289-302, threading the reference
currently checked out, the results pushed so far and every checkout issued.
The first rejected step ends the loop (and, in `run`, the process) at once. -/
def evalLoop (env : Env) (cfg : Config) :
    List String → String → List EvalResult → List String →
    List EvalResult × String × List String × Option RunError
  | [], cur, acc, outs => (acc, cur, outs, none)
  | c :: cs, cur, acc, outs =>
      if env.checkoutOk c then
        match (buildProject (env.buildEnvAt c) cfg.buildCommand).2 with
        | some st => (acc, c, outs ++ [c], some (.buildFailure st c))
        | none =>
            match env.artifactSize c with
            | some sz =>
                evalLoop env cfg cs c
                  (acc ++ [{ toCommitInfo := env.infoAt c, buildSize := sz }]) (outs ++ [c])
            | none => (acc, c, outs ++ [c], some (.artifactNotFound cfg.zipPath c))
      else (acc, cur, outs ++ [c], some (.checkoutError c))

structure RunOutcome where
  results : List EvalResult
  finalRef : String
  checkouts : List String
  error : Option RunError
  wroteOutput : Bool
deriving DecidableEq

/-- Model of `run` (src/index.js:253-318).  The branch name is captured first;
the commit list is fetched and truncated; an unconfirmed prompt returns early.
The `await` chain has no error handler, so the first rejected step ends the
process: the restoration checkout (line 313) and `writeOutput` (line 317) run
only when the loop finished without error. -/
def run (env : Env) (cfg : Config) : RunOutcome :=
  let branchName := env.branch
  let commits := truncateCommits cfg.commitLimit (getCommitList env)
  if env.confirmed then
    match evalLoop env cfg commits branchName [] [] with
    | (results, cur, outs, some e) =>
        { results := results, finalRef := cur, checkouts := outs, error := some e,
          wroteOutput := false }
    | (results, cur, outs, none) =>
        if env.checkoutOk branchName then
          { results := results, finalRef := branchName, checkouts := outs ++ [branchName],
            error := none, wroteOutput := true }
        else
          { results := results, finalRef := cur, checkouts := outs ++ [branchName],
            error := some (.restoreError branchName), wroteOutput := false }
  else
    { results := [], finalRef := branchName, checkouts := [], error := none,
      wroteOutput := false }

/-! ### Concrete environments for the failing scenarios -/

/-- Commit metadata used by the concrete environments. -/
def infoFor (h : String) : CommitInfo :=
  { hash := h, date := "2020-09-13", message := "msg " ++ h, refs := "", body := "",
    author_name := "dev", author_email := "dev@example.com" }

/-- Configuration shared by the concrete scenarios. -/
def cfg0 : Config :=
  { zipPath := "build.zip", buildCommand := "npm run build", projectDirectory := ".",
    outputDirectory := ".", commitLimit := 0, verbose := false }

/-- Environment in which every step of every commit succeeds. -/
def envOk : Env :=
  { gitAvailable := true, branch := "main", logHashes := ["c1", "c2", "c3"],
    checkoutOk := fun _ => true,
    buildEnvAt := fun _ => { nodeModulesExists := true, rmExit := 0, ciExit := 0, buildExit := 0 },
    artifactSize := fun _ => some 13312,
    infoAt := infoFor,
    confirmed := true }

/-- Environment with one commit whose dependency install exits non-zero. -/
def envInstallFail : Env :=
  { envOk with
    logHashes := ["c1"],
    buildEnvAt := fun _ =>
      { nodeModulesExists := false, rmExit := 0, ciExit := 1, buildExit := 0 } }

/-- Environment with three commits where the build command of the second exits
non-zero. -/
def envBuildFail2 : Env :=
  { envOk with
    buildEnvAt := fun c =>
      { nodeModulesExists := false, rmExit := 0, ciExit := 0,
        buildExit := if c = "c2" then 1 else 0 } }

/-- Environment where the second commit's build succeeds but leaves no artifact
at the expected path. -/
def envNoArtifact2 : Env :=
  { envOk with artifactSize := fun c => if c = "c2" then none else some 13312 }

/-- Environment with no commits in the history. -/
def envEmptyLog : Env := { envOk with logHashes := [] }

/-- One result record whose commit message contains a backtick. -/
def badResults : List EvalResult :=
  [{ toCommitInfo := { infoFor "c1" with message := "use `code` fences" }, buildSize := 7 }]

/-! ### Round-trip: token-level lemmas -/

/-- Whitespace-only character lists. -/
def WsL (w : List Char) : Prop := ∀ c ∈ w, wsCh c = true

/-- A list that cannot extend a digit run: empty or headed by a non-digit. -/
def numStop : List Char → Bool
  | [] => true
  | c :: _ => !isDigitCh c

theorem dropWs_ws_append (w : List Char) (hw : WsL w) (s : List Char) :
    dropWs (w ++ s) = dropWs s := by
  induction w with
  | nil => rfl
  | cons c t ih =>
      simp only [List.cons_append, dropWs, hw c (List.mem_cons_self c t), if_true]
      exact ih fun x hx => hw x (List.mem_cons_of_mem c hx)

theorem dropWs_cons_not {c : Char} (h : wsCh c = false) (cs : List Char) :
    dropWs (c :: cs) = c :: cs := by
  simp [dropWs, h]

theorem digit_spec : ∀ d, d < 10 → isDigitCh (digitCh d) = true ∧ digVal (digitCh d) = d := by
  decide

theorem isDigitCh_not_ws {c : Char} (h : isDigitCh c = true) : wsCh c = false := by
  simp only [isDigitCh, Bool.and_eq_true, decide_eq_true_eq] at h
  simp only [wsCh, Bool.or_eq_false_iff, decide_eq_false_iff_not]
  omega

theorem isDigitCh_ne {c : Char} (h : isDigitCh c = true) :
    c ≠ ']' ∧ c ≠ '\x7d' ∧ c ≠ ',' ∧ c ≠ '"' ∧ c ≠ '[' ∧ c ≠ '\x7b' ∧ c ≠ '\\' := by
  refine ⟨?_, ?_, ?_, ?_, ?_, ?_, ?_⟩ <;> (intro hc; subst hc; exact absurd h (by decide))

theorem natCharsAux_eq (fuel : Nat) : ∀ (n : Nat) (acc : List Char), n ≤ fuel →
    natCharsAux fuel n acc = ((Nat.digits 10 n).map digitCh).reverse ++ acc := by
  induction fuel with
  | zero =>
      intro n acc h
      have hn : n = 0 := by omega
      subst hn
      simp [natCharsAux]
  | succ f ih =>
      intro n acc h
      rw [natCharsAux]
      split
      · rename_i hn
        subst hn
        simp
      · rename_i hn
        have hdiv : n / 10 ≤ f := by
          have := Nat.div_lt_self (Nat.pos_of_ne_zero hn) (by norm_num : 1 < 10)
          omega
        rw [ih (n / 10) _ hdiv,
          Nat.digits_def' (by norm_num : 1 < 10) (Nat.pos_of_ne_zero hn)]
        simp [List.reverse_cons, List.append_assoc]

theorem natChars_eq (n : Nat) :
    natChars n = if n = 0 then [digitCh 0] else ((Nat.digits 10 n).map digitCh).reverse := by
  unfold natChars
  split
  · rfl
  · rw [natCharsAux_eq n n [] (le_refl n), List.append_nil]

theorem natChars_digits (n : Nat) : ∀ c ∈ natChars n, isDigitCh c = true := by
  intro c hc
  rw [natChars_eq] at hc
  split at hc
  · simp only [List.mem_singleton] at hc
    subst hc; exact (digit_spec 0 (by omega)).1
  · simp only [List.mem_reverse, List.mem_map] at hc
    obtain ⟨d, hd, rfl⟩ := hc
    exact (digit_spec d (Nat.digits_lt_base (by omega) hd)).1

theorem natChars_ne_nil (n : Nat) : natChars n ≠ [] := by
  rw [natChars_eq]
  split
  · simp
  · simp only [ne_eq, List.reverse_eq_nil_iff, List.map_eq_nil_iff]
    exact Nat.digits_ne_nil_iff_ne_zero.mpr (by assumption)

theorem digitsVal_natChars (n : Nat) : digitsVal (natChars n) = n := by
  rw [natChars_eq]
  unfold digitsVal
  split
  · subst n
    decide
  · rw [List.map_reverse, List.reverse_reverse, List.map_map]
    have hcg : List.map (digVal ∘ digitCh) (Nat.digits 10 n) = Nat.digits 10 n := by
      have h2 := List.map_congr_left (l := Nat.digits 10 n) (g := id) fun d hd =>
        show (digVal ∘ digitCh) d = id d from
          (digit_spec d (Nat.digits_lt_base (by omega) hd)).2
      rw [h2, List.map_id]
    rw [hcg]
    exact Nat.ofDigits_digits 10 n

theorem grabDigits_stop {cs : List Char} (h : numStop cs = true) : grabDigits cs = ([], cs) := by
  match cs with
  | [] => rfl
  | c :: t =>
      simp only [numStop, Bool.not_eq_true'] at h
      simp [grabDigits, h]

theorem grabDigits_run (ds : List Char) (hds : ∀ c ∈ ds, isDigitCh c = true)
    (rest : List Char) (hr : numStop rest = true) :
    grabDigits (ds ++ rest) = (ds, rest) := by
  induction ds with
  | nil => simpa using grabDigits_stop hr
  | cons c t ih =>
      have hc := hds c (List.mem_cons_self c t)
      have ht := ih fun x hx => hds x (List.mem_cons_of_mem c hx)
      simp [grabDigits, hc, ht]

theorem readNum_run (n : Nat) (rest : List Char) (hr : numStop rest = true) :
    readNum (natChars n ++ rest) = some (n, rest) := by
  obtain ⟨c, t, hct⟩ := List.exists_cons_of_ne_nil (natChars_ne_nil n)
  rw [readNum, grabDigits_run _ (natChars_digits n) _ hr, hct]
  simp only []
  rw [← hct, digitsVal_natChars]

theorem hexVal_hexCh : ∀ d, d < 16 → hexVal (hexCh d) = some d := by
  decide

theorem hexVal_zero : hexVal '0' = some 0 := by decide

theorem readStr_esc (c : Char) (rest : List Char) :
    readStr (escCh c ++ rest) = (readStr rest).map fun p => (c :: p.1, p.2) := by
  unfold escCh
  split_ifs with h1 h2 h3 h4 h5 h6 h7 h8
  · subst h1; simp [readStr, readEsc, escSub]
  · subst h2; simp [readStr, readEsc, escSub]
  · subst h3; simp [readStr, readEsc, escSub]
  · subst h4; simp [readStr, readEsc, escSub]
  · subst h5; simp [readStr, readEsc, escSub]
  · subst h6; simp [readStr, readEsc, escSub]
  · subst h7; simp [readStr, readEsc, escSub]
  · have hhi : c.toNat / 16 < 16 := by omega
    have hlo : c.toNat % 16 < 16 := by omega
    have hceq : ((0 * 16 + 0) * 16 + c.toNat / 16) * 16 + c.toNat % 16 = c.toNat := by omega
    have hsmall : c.toNat < 55296 := by omega
    simp [readStr, readEsc, readUni, hex4, hexVal_hexCh _ hhi, hexVal_hexCh _ hlo, hexVal_zero]
    rw [show c.toNat / 16 * 16 + c.toNat % 16 = c.toNat from by omega, if_pos hsmall,
      Char.ofNat_toNat]
  · simp only [List.singleton_append, readStr]
    rw [if_neg h1, if_neg h2, if_neg (by omega), List.append_eq, List.nil_append]

theorem readStr_flat (l rest : List Char) :
    readStr ((l.map escCh).flatten ++ '"' :: rest) = some (l, rest) := by
  induction l with
  | nil => simp [readStr]
  | cons c t ih =>
      rw [List.map_cons, List.flatten_cons, List.append_assoc, readStr_esc, ih]
      rfl

/-! ### Round-trip: whitespace and head-character lemmas -/

theorem WsL_append {a b : List Char} (ha : WsL a) (hb : WsL b) : WsL (a ++ b) := by
  intro c hc
  rcases List.mem_append.mp hc with h | h
  · exact ha c h
  · exact hb c h

theorem WsL_nlInd (gap ind : List Char) (hi : WsL ind) : WsL (nlInd gap ind) := by
  unfold nlInd
  split
  · intro c hc; simp at hc
  · intro c hc
    rcases List.mem_cons.mp hc with rfl | h
    · decide
    · exact hi c h

theorem isDigitCh_ne2 {c : Char} (h : isDigitCh c = true) : c ≠ ':' := by
  intro hc; subst hc; exact absurd h (by decide)

/-- Every serialized value starts with a quote, an opening bracket or brace, or
a decimal digit; in particular with a character that is not whitespace, not a
closing delimiter, not a comma and not a colon. -/
theorem serVal_cons (gap ind : List Char) (v : JVal) :
    ∃ c t, serVal gap ind v = c :: t ∧ wsCh c = false ∧
      c ≠ ']' ∧ c ≠ '\x7d' ∧ c ≠ ',' ∧ c ≠ ':' := by
  cases v with
  | str s => exact ⟨'"', _, rfl, by decide, by decide, by decide, by decide, by decide⟩
  | num n =>
      obtain ⟨c, t, hct⟩ := List.exists_cons_of_ne_nil (natChars_ne_nil n)
      have hd : isDigitCh c = true := natChars_digits n c (hct ▸ List.mem_cons_self c t)
      exact ⟨c, t, hct, isDigitCh_not_ws hd, (isDigitCh_ne hd).1, (isDigitCh_ne hd).2.1,
        (isDigitCh_ne hd).2.2.1, isDigitCh_ne2 hd⟩
  | arr a =>
      cases a with
      | nil => exact ⟨'[', _, rfl, by decide, by decide, by decide, by decide, by decide⟩
      | cons v t => exact ⟨'[', _, rfl, by decide, by decide, by decide, by decide, by decide⟩
  | obj o =>
      cases o with
      | nil => exact ⟨'\x7b', _, rfl, by decide, by decide, by decide, by decide, by decide⟩
      | cons k v t =>
          exact ⟨'\x7b', _, rfl, by decide, by decide, by decide, by decide, by decide⟩

theorem dropWs_serVal (gap ind : List Char) (v : JVal) (rest : List Char) :
    dropWs (serVal gap ind v ++ rest) = serVal gap ind v ++ rest := by
  obtain ⟨c, t, hct, hws, -, -, -, -⟩ := serVal_cons gap ind v
  rw [hct, List.cons_append, dropWs_cons_not hws]

theorem serVal_length_pos (gap ind : List Char) (v : JVal) :
    0 < (serVal gap ind v).length := by
  obtain ⟨c, t, hct, -⟩ := serVal_cons gap ind v
  rw [hct]; simp

theorem serArrRest_length_pos (gap ind : List Char) (t : JArr) :
    0 < (serArrRest gap ind t).length := by
  cases t <;> simp [serArrRest]

theorem serObjRest_length_pos (gap ind : List Char) (t : JObj) :
    0 < (serObjRest gap ind t).length := by
  cases t <;> simp [serObjRest]

theorem strChars_length (s : String) : 2 ≤ (strChars s).length := by
  simp [strChars]

theorem numStop_cons {c : Char} (h : isDigitCh c = false) (t : List Char) :
    numStop (c :: t) = true := by
  simp [numStop, h]

theorem numStop_serArrRest (gap ind : List Char) (t : JArr) (rest : List Char) :
    numStop (serArrRest gap ind t ++ rest) = true := by
  cases t with
  | nil =>
      unfold serArrRest nlInd
      split
      · exact numStop_cons (by decide) _
      · exact numStop_cons (by decide) _
  | cons v t2 => exact numStop_cons (by decide) _

theorem numStop_serObjRest (gap ind : List Char) (t : JObj) (rest : List Char) :
    numStop (serObjRest gap ind t ++ rest) = true := by
  cases t with
  | nil =>
      unfold serObjRest nlInd
      split
      · exact numStop_cons (by decide) _
      · exact numStop_cons (by decide) _
  | cons k v t2 => exact numStop_cons (by decide) _

theorem strChars_append (k : String) (X : List Char) :
    strChars k ++ X = '"' :: ((k.data.map escCh).flatten ++ '"' :: X) := by
  simp [strChars]

theorem colonSep_shape (gap : List Char) : ∃ w, colonSep gap = ':' :: w ∧ WsL w := by
  unfold colonSep
  split
  · exact ⟨[], rfl, fun c hc => by simp at hc⟩
  · refine ⟨[' '], rfl, fun c hc => ?_⟩
    simp at hc
    subst hc
    decide

/-! ### Round-trip: one-step dispatch lemmas for the reader -/

theorem readVal_step_quote (f : Nat) (r : List Char) :
    readVal (f + 1) ('"' :: r) = (readStr r).map fun p => (JVal.str (String.mk p.1), p.2) := rfl

theorem readVal_step_digit (f : Nat) (c : Char) (r : List Char) (h1 : isDigitCh c = true) :
    readVal (f + 1) (c :: r) = (readNum (c :: r)).map fun p => (JVal.num p.1, p.2) := by
  simp only [readVal]
  rw [dropWs_cons_not (isDigitCh_not_ws h1)]
  simp only []
  rw [if_neg (show ¬(c = '"') from (isDigitCh_ne h1).2.2.2.1),
    if_neg (show ¬(c = '[') from (isDigitCh_ne h1).2.2.2.2.1),
    if_neg (show ¬(c = '\x7b') from (isDigitCh_ne h1).2.2.2.2.2.1),
    if_pos h1]

theorem readVal_step_arr (f : Nat) (c2 : Char) (r2 : List Char) (hne : ¬(c2 = ']'))
    (hws : wsCh c2 = false) (w : List Char) (hw : WsL w) :
    readVal (f + 1) ('[' :: (w ++ c2 :: r2)) =
      (readItems f (c2 :: r2)).map fun p => (JVal.arr p.1, p.2) := by
  simp only [readVal]
  rw [dropWs_cons_not (by decide)]
  simp only [reduceIte]
  rw [dropWs_ws_append w hw, dropWs_cons_not hws]
  simp only []
  rw [if_neg hne]
  rfl

theorem readVal_step_obj (f : Nat) (c2 : Char) (r2 : List Char) (hne : ¬(c2 = '\x7d'))
    (hws : wsCh c2 = false) (w : List Char) (hw : WsL w) :
    readVal (f + 1) ('\x7b' :: (w ++ c2 :: r2)) =
      (readMembers f (c2 :: r2)).map fun p => (JVal.obj p.1, p.2) := by
  simp only [readVal]
  rw [dropWs_cons_not (by decide)]
  simp only [reduceIte]
  rw [dropWs_ws_append w hw, dropWs_cons_not hws]
  simp only []
  rw [if_neg hne]
  rfl

/-! ### Round-trip: parsing inverts serialization -/

mutual

theorem rtVal : ∀ (v : JVal) (gap ind : List Char) (fuel : Nat) (rest : List Char),
    WsL gap → WsL ind → (serVal gap ind v).length < fuel → numStop rest = true →
    readVal fuel (serVal gap ind v ++ rest) = some (v, rest)
  | .str s, gap, ind, fuel, rest, hg, hi, hf, hr => by
      cases fuel with
      | zero => exact absurd hf (Nat.not_lt_zero _)
      | succ f =>
          show readVal (f + 1) (strChars s ++ rest) = some (.str s, rest)
          rw [strChars_append, readVal_step_quote, readStr_flat]
          rfl
  | .num n, gap, ind, fuel, rest, hg, hi, hf, hr => by
      cases fuel with
      | zero => exact absurd hf (Nat.not_lt_zero _)
      | succ f =>
          show readVal (f + 1) (natChars n ++ rest) = some (.num n, rest)
          obtain ⟨c, t, hct⟩ := List.exists_cons_of_ne_nil (natChars_ne_nil n)
          have hd : isDigitCh c = true := natChars_digits n c (hct ▸ List.mem_cons_self c t)
          rw [hct, List.cons_append, readVal_step_digit f c _ hd, ← List.cons_append, ← hct,
            readNum_run n rest hr]
          rfl
  | .arr .nil, gap, ind, fuel, rest, hg, hi, hf, hr => by
      cases fuel with
      | zero => exact absurd hf (Nat.not_lt_zero _)
      | succ f =>
          show readVal (f + 1) (['[', ']'] ++ rest) = some (.arr .nil, rest)
          rfl
  | .arr (.cons v t), gap, ind, fuel, rest, hg, hi, hf, hr => by
      cases fuel with
      | zero => exact absurd hf (Nat.not_lt_zero _)
      | succ f =>
          have hg' : WsL (ind ++ gap) := WsL_append hi hg
          obtain ⟨c2, t2, hct, hws, hne, -, -, -⟩ := serVal_cons gap (ind ++ gap) v
          have hfu : (serVal gap (ind ++ gap) v).length + (serArrRest gap ind t).length < f := by
            simp only [serVal, serArr, List.length_cons, List.length_append] at hf
            omega
          show readVal (f + 1)
              (('[' :: (nlInd gap (ind ++ gap) ++
                (serVal gap (ind ++ gap) v ++ serArrRest gap ind t))) ++ rest)
              = some (.arr (.cons v t), rest)
          rw [List.cons_append, List.append_assoc, List.append_assoc, hct, List.cons_append,
            readVal_step_arr f c2 _ (fun h => hne h) hws _ (WsL_nlInd gap (ind ++ gap) hg'),
            ← List.cons_append, ← hct,
            rtItems v t gap ind f rest hg hi hfu hr]
          rfl
  | .obj .nil, gap, ind, fuel, rest, hg, hi, hf, hr => by
      cases fuel with
      | zero => exact absurd hf (Nat.not_lt_zero _)
      | succ f =>
          show readVal (f + 1) (['\x7b', '\x7d'] ++ rest) = some (.obj .nil, rest)
          rfl
  | .obj (.cons k v t), gap, ind, fuel, rest, hg, hi, hf, hr => by
      cases fuel with
      | zero => exact absurd hf (Nat.not_lt_zero _)
      | succ f =>
          have hg' : WsL (ind ++ gap) := WsL_append hi hg
          have hfu : (strChars k).length + (serVal gap (ind ++ gap) v).length +
              (serObjRest gap ind t).length < f := by
            simp only [serVal, serObj, List.length_cons, List.length_append] at hf
            have := colonSep_shape gap
            obtain ⟨w, hw, -⟩ := this
            rw [hw] at hf
            simp only [List.length_cons] at hf
            omega
          show readVal (f + 1)
              (('\x7b' :: (nlInd gap (ind ++ gap) ++
                (strChars k ++ (colonSep gap ++
                  (serVal gap (ind ++ gap) v ++ serObjRest gap ind t))))) ++ rest)
              = some (.obj (.cons k v t), rest)
          rw [List.cons_append, List.append_assoc, List.append_assoc, List.append_assoc,
            List.append_assoc, strChars_append,
            readVal_step_obj f '"' _ (by decide) (by decide) _ (WsL_nlInd gap (ind ++ gap) hg'),
            ← strChars_append,
            rtMembers k v t gap ind f rest hg hi hfu hr]
          rfl
termination_by v _ _ _ _ _ _ _ _ => sizeOf v
decreasing_by all_goals (simp_wf <;> omega)

theorem rtItems : ∀ (v : JVal) (t : JArr) (gap ind : List Char) (fuel : Nat) (rest : List Char),
    WsL gap → WsL ind →
    (serVal gap (ind ++ gap) v).length + (serArrRest gap ind t).length < fuel →
    numStop rest = true →
    readItems fuel (serVal gap (ind ++ gap) v ++ (serArrRest gap ind t ++ rest))
      = some (JArr.cons v t, rest)
  | v, .nil, gap, ind, fuel, rest, hg, hi, hf, hr => by
      cases fuel with
      | zero => exact absurd hf (Nat.not_lt_zero _)
      | succ f =>
          have hfv : (serVal gap (ind ++ gap) v).length < f := by
            have := serArrRest_length_pos gap ind .nil
            omega
          simp only [readItems]
          rw [rtVal v gap (ind ++ gap) f _ hg (WsL_append hi hg) hfv
            (numStop_serArrRest gap ind .nil rest)]
          simp only []
          rw [show serArrRest gap ind .nil ++ rest = nlInd gap ind ++ (']' :: rest) from by
            simp [serArrRest]]
          rw [dropWs_ws_append _ (WsL_nlInd gap ind hi), dropWs_cons_not (by decide)]
          rfl
  | v, .cons v2 t2, gap, ind, fuel, rest, hg, hi, hf, hr => by
      cases fuel with
      | zero => exact absurd hf (Nat.not_lt_zero _)
      | succ f =>
          have hsv := serVal_length_pos gap (ind ++ gap) v
          have hfv : (serVal gap (ind ++ gap) v).length < f := by
            have := serArrRest_length_pos gap ind (.cons v2 t2)
            omega
          have hfu : (serVal gap (ind ++ gap) v2).length +
              (serArrRest gap ind t2).length < f := by
            simp only [serArrRest, List.length_cons, List.length_append] at hf
            omega
          simp only [readItems]
          rw [rtVal v gap (ind ++ gap) f _ hg (WsL_append hi hg) hfv
            (numStop_serArrRest gap ind (.cons v2 t2) rest)]
          simp only []
          rw [show serArrRest gap ind (.cons v2 t2) ++ rest
              = ',' :: (nlInd gap (ind ++ gap) ++
                  (serVal gap (ind ++ gap) v2 ++ (serArrRest gap ind t2 ++ rest))) from by
            simp [serArrRest]]
          rw [dropWs_cons_not (by decide)]
          simp only [reduceIte]
          rw [dropWs_ws_append _ (WsL_nlInd gap (ind ++ gap) (WsL_append hi hg)), dropWs_serVal,
            rtItems v2 t2 gap ind f rest hg hi hfu hr]
          rfl
termination_by v t _ _ _ _ _ _ _ _ => sizeOf (JArr.cons v t)
decreasing_by all_goals (simp_wf <;> omega)

theorem rtMembers : ∀ (k : String) (v : JVal) (t : JObj) (gap ind : List Char) (fuel : Nat)
    (rest : List Char),
    WsL gap → WsL ind →
    (strChars k).length + (serVal gap (ind ++ gap) v).length +
      (serObjRest gap ind t).length < fuel →
    numStop rest = true →
    readMembers fuel (strChars k ++ (colonSep gap ++
        (serVal gap (ind ++ gap) v ++ (serObjRest gap ind t ++ rest))))
      = some (JObj.cons k v t, rest)
  | k, v, .nil, gap, ind, fuel, rest, hg, hi, hf, hr => by
      cases fuel with
      | zero => exact absurd hf (Nat.not_lt_zero _)
      | succ f =>
          have hfv : (serVal gap (ind ++ gap) v).length < f := by
            have h1 := serObjRest_length_pos gap ind .nil
            have h2 := strChars_length k
            omega
          obtain ⟨w2, hw2col, hw2⟩ := colonSep_shape gap
          rw [strChars_append]
          simp only [readMembers]
          rw [dropWs_cons_not (by decide)]
          simp only [reduceIte]
          rw [readStr_flat]
          simp only []
          rw [hw2col, List.cons_append, dropWs_cons_not (by decide)]
          simp only [reduceIte]
          rw [dropWs_ws_append w2 hw2, dropWs_serVal,
            rtVal v gap (ind ++ gap) f _ hg (WsL_append hi hg) hfv
              (numStop_serObjRest gap ind .nil rest)]
          simp only []
          rw [show serObjRest gap ind .nil ++ rest = nlInd gap ind ++ ('\x7d' :: rest) from by
            simp [serObjRest]]
          rw [dropWs_ws_append _ (WsL_nlInd gap ind hi), dropWs_cons_not (by decide)]
          rfl
  | k, v, .cons k2 v2 t2, gap, ind, fuel, rest, hg, hi, hf, hr => by
      cases fuel with
      | zero => exact absurd hf (Nat.not_lt_zero _)
      | succ f =>
          have hsv := serVal_length_pos gap (ind ++ gap) v
          have hsk := strChars_length k
          have hfv : (serVal gap (ind ++ gap) v).length < f := by
            have h1 := serObjRest_length_pos gap ind (.cons k2 v2 t2)
            omega
          have hfu : (strChars k2).length + (serVal gap (ind ++ gap) v2).length +
              (serObjRest gap ind t2).length < f := by
            simp only [serObjRest, List.length_cons, List.length_append] at hf
            obtain ⟨w, hw, -⟩ := colonSep_shape gap
            rw [hw] at hf
            simp only [List.length_cons] at hf
            omega
          obtain ⟨w2, hw2col, hw2⟩ := colonSep_shape gap
          rw [strChars_append]
          simp only [readMembers]
          rw [dropWs_cons_not (by decide)]
          simp only [reduceIte]
          rw [readStr_flat]
          simp only []
          rw [hw2col, List.cons_append, dropWs_cons_not (by decide)]
          simp only [reduceIte]
          rw [dropWs_ws_append w2 hw2, dropWs_serVal,
            rtVal v gap (ind ++ gap) f _ hg (WsL_append hi hg) hfv
              (numStop_serObjRest gap ind (.cons k2 v2 t2) rest)]
          simp only []
          rw [show serObjRest gap ind (.cons k2 v2 t2) ++ rest
              = ',' :: (nlInd gap (ind ++ gap) ++
                  (strChars k2 ++ (colonSep gap ++
                    (serVal gap (ind ++ gap) v2 ++ (serObjRest gap ind t2 ++ rest))))) from by
            simp [serObjRest]]
          rw [dropWs_cons_not (by decide)]
          simp only [reduceIte]
          rw [dropWs_ws_append _ (WsL_nlInd gap (ind ++ gap) (WsL_append hi hg)),
            strChars_append, dropWs_cons_not (by decide), ← strChars_append,
            rtMembers k2 v2 t2 gap ind f rest hg hi hfu hr]
          rfl
termination_by k v t _ _ _ _ _ _ _ _ => sizeOf (JObj.cons k v t)
decreasing_by all_goals (simp_wf <;> omega)

end

theorem parseJson_serVal (gap : List Char) (hg : WsL gap) (v : JVal) :
    parseJson (String.mk (serVal gap [] v)) = some v := by
  have h := rtVal v gap [] ((serVal gap [] v).length + 1) [] hg
    (fun c hc => by simp at hc) (Nat.lt_succ_self _) rfl
  rw [List.append_nil] at h
  show (match readVal ((serVal gap [] v).length + 1) (serVal gap [] v) with
    | some (v, r) => if dropWs r = [] then some v else none
    | none => none) = some v
  rw [h]
  rfl

theorem parseJson_pretty (v : JVal) : parseJson (stringifyPretty v) = some v :=
  parseJson_serVal [' ', ' '] (fun c hc => by simp at hc; subst hc; decide) v

theorem parseJson_compact (v : JVal) : parseJson (stringifyCompact v) = some v :=
  parseJson_serVal [] (fun c hc => by simp at hc) v

/-! ### Decoding inverts encoding -/

theorem decodeResult_encodeResult (r : EvalResult) : decodeResult (encodeResult r) = some r := rfl

theorem decodeArr_encodeList (rs : List EvalResult) : decodeArr (encodeList rs) = some rs := by
  induction rs with
  | nil => rfl
  | cons r t ih => simp [encodeList, decodeArr, decodeResult_encodeResult, ih]

theorem decodeResults_encodeResults (rs : List EvalResult) :
    decodeResults (encodeResults rs) = some rs := by
  simp [encodeResults, decodeResults, decodeArr_encodeList]

theorem parseResults_toJsonDocument (rs : List EvalResult) :
    parseResults (toJsonDocument rs) = some rs := by
  unfold parseResults toJsonDocument
  rw [parseJson_pretty]
  simp [decodeResults_encodeResults]

theorem parseResults_compact (rs : List EvalResult) :
    parseResults (stringifyCompact (encodeResults rs)) = some rs := by
  unfold parseResults
  rw [parseJson_compact]
  simp [decodeResults_encodeResults]

/-! ### Template-literal cooking is the identity on safe contents -/

theorem templateCook_safe : ∀ l : List Char, hasBadChar backtickCh l = false →
    hasBadChar '\\' l = false → hasDollarBrace l = false → templateCook l = some l
  | [], _, _, _ => rfl
  | c :: cs, h1, h2, h3 => by
      simp only [hasBadChar, Bool.or_eq_false_iff, decide_eq_false_iff_not] at h1 h2
      have h3' : hasDollarBrace cs = false := by
        simp only [hasDollarBrace, Bool.or_eq_false_iff] at h3
        exact h3.2
      have hcd : ¬(c = '$' ∧ headIsLbrace cs = true) := by
        rintro ⟨rfl, hb⟩
        simp only [hasDollarBrace, Bool.or_eq_false_iff, Bool.and_eq_false_iff] at h3
        rcases h3.1 with h | h
        · simp at h
        · rw [hb] at h; simp at h
      have ih := templateCook_safe cs h1.2 h2.2 h3'
      simp only [templateCook]
      rw [if_neg h1.1, if_neg hcd, if_neg h2.1, ih]
      rfl

/-! ### Evaluation loop over fully successful commits -/

theorem evalLoop_ok_prefix (env : Env) (cfg : Config) (cs1 : List String)
    (hok : ∀ c ∈ cs1, commitOk env cfg c) :
    ∀ (rest : List String) (cur : String) (acc : List EvalResult) (outs : List String),
    evalLoop env cfg (cs1 ++ rest) cur acc outs
      = evalLoop env cfg rest (cs1.getLastD cur) (acc ++ cs1.map (resultOf env)) (outs ++ cs1) := by
  induction cs1 with
  | nil => intro rest cur acc outs; simp
  | cons c t ih =>
      intro rest cur acc outs
      obtain ⟨h1, h2, h3⟩ := hok c (List.mem_cons_self c t)
      obtain ⟨sz, hsz⟩ := Option.ne_none_iff_exists'.mp h3
      simp only [List.cons_append, evalLoop]
      rw [if_pos h1, h2]
      simp only []
      rw [hsz]
      simp only []
      have hres : resultOf env c
          = ({ toCommitInfo := env.infoAt c, buildSize := sz } : EvalResult) := by
        simp [resultOf, hsz]
      refine (ih (fun x hx => hok x (List.mem_cons_of_mem c hx)) rest c
        (acc ++ [{ toCommitInfo := env.infoAt c, buildSize := sz }]) (outs ++ [c])).trans ?_
      rw [show (c :: t).getLastD cur = t.getLastD c from by cases t <;> simp [List.getLastD]]
      simp [hres]

theorem evalLoop_ok (env : Env) (cfg : Config) (cs : List String)
    (hok : ∀ c ∈ cs, commitOk env cfg c) (cur : String) (acc : List EvalResult)
    (outs : List String) :
    evalLoop env cfg cs cur acc outs
      = (acc ++ cs.map (resultOf env), cs.getLastD cur, outs ++ cs, none) := by
  have h := evalLoop_ok_prefix env cfg cs hok [] cur acc outs
  rw [List.append_nil] at h
  rw [h]
  rfl

/-! ### Truncation -/

theorem truncateCommits_length_nonneg (L : Int) (hL : 0 ≤ L) (cs : List String) :
    (truncateCommits L cs).length = if L = 0 then cs.length else min L.toNat cs.length := by
  unfold truncateCommits spliceKeep
  split
  · rfl
  · rw [if_neg (by omega : ¬(L < 0))]
    simp only [List.length_take]
    omega

theorem truncateCommits_neg (L : Int) (hL : L < 0) (cs : List String) :
    truncateCommits L cs = cs.take (cs.length - (-L).toNat) := by
  unfold truncateCommits spliceKeep
  rw [if_neg (by omega : ¬(L = 0)), if_pos hL]
  congr 1
  omega

/-! ### Fully successful runs -/

theorem run_ok (env : Env) (cfg : Config) (hconf : env.confirmed = true)
    (hok : ∀ c ∈ truncateCommits cfg.commitLimit (getCommitList env), commitOk env cfg c)
    (hbr : env.checkoutOk env.branch = true) :
    run env cfg =
      { results := (truncateCommits cfg.commitLimit (getCommitList env)).map (resultOf env),
        finalRef := env.branch,
        checkouts := truncateCommits cfg.commitLimit (getCommitList env) ++ [env.branch],
        error := none, wroteOutput := true } := by
  unfold run
  rw [if_pos hconf, evalLoop_ok env cfg _ hok env.branch [] []]
  simp only []
  rw [if_pos hbr]
  simp



/-! ### The claims -/

/-- C1: the specification claims that once the evaluation loop has begun, the
restoration checkout of the captured branch runs on every exit path, so the
checked-out reference at process exit equals the captured branch even after a
checkout, build or measurement failure.  Evaluating `run` in an environment
whose single commit's dependency install exits non-zero shows the code does
not implement this: the rejected `await` ends `run` before `checkoutBranch`
(src/index.js:313), the captured branch is never checked out again, and the
process exits with the working directory on the historical commit. -/
theorem spec_C1 :
    run envInstallFail { cfg0 with commitLimit := 1 } =
      { results := [], finalRef := "c1", checkouts := ["c1"],
        error := some (.buildFailure .install "c1"), wroteOutput := false } ∧
    envInstallFail.branch = "main" ∧
    (run envInstallFail { cfg0 with commitLimit := 1 }).finalRef ≠ envInstallFail.branch ∧
    envInstallFail.branch ∉ (run envInstallFail { cfg0 with commitLimit := 1 }).checkouts := by
  refine ⟨by decide, rfl, by decide, by decide⟩

/-- C2: for every non-negative commitLimit L, a confirmed and fully successful
run evaluates (and records) as many results as there are commits in the
gateway's list when L = 0, and min(L, N) otherwise. -/
theorem spec_C2 (env : Env) (cfg : Config) (hconf : env.confirmed = true)
    (hL : 0 ≤ cfg.commitLimit)
    (hok : ∀ c ∈ truncateCommits cfg.commitLimit (getCommitList env), commitOk env cfg c)
    (hbr : env.checkoutOk env.branch = true) :
    (run env cfg).results.length =
      if cfg.commitLimit = 0 then (getCommitList env).length
      else min cfg.commitLimit.toNat (getCommitList env).length := by
  rw [run_ok env cfg hconf hok hbr]
  simp only [List.length_map]
  exact truncateCommits_length_nonneg cfg.commitLimit hL (getCommitList env)

theorem spec_C2_witness :
    (run envOk { cfg0 with commitLimit := 2 }).results.length = 2 := by
  have h := spec_C2 envOk { cfg0 with commitLimit := 2 } (by decide) (by decide) (by decide)
    (by decide)
  simpa using h

/-- C3: the specification claims that when the build fails on the second of
three commits the run aborts at once with a build failure, exactly one result
(for the first commit) has been recorded, and the working directory is
restored to the original branch.  Evaluating `run` at that scenario confirms
the immediate abort with exactly one result, but refutes the restoration
clause: the branch is never checked out again and the final reference is the
second commit. -/
theorem spec_C3 :
    (run envBuildFail2 cfg0).results.length = 1 ∧
    (run envBuildFail2 cfg0).results = [resultOf envBuildFail2 "c1"] ∧
    (run envBuildFail2 cfg0).error = some (.buildFailure .build "c2") ∧
    (run envBuildFail2 cfg0).wroteOutput = false ∧
    (run envBuildFail2 cfg0).finalRef = "c2" ∧
    (run envBuildFail2 cfg0).finalRef ≠ envBuildFail2.branch := by
  refine ⟨by decide, by decide, by decide, by decide, by decide, by decide⟩

/-- C4: the build operation removes the dependency-install directory only if
it exists, then performs a clean install, then runs the caller's command
verbatim, in that order; a non-zero exit from the install sub-step fails the
operation with the install step (no build command is issued), and a non-zero
exit from the build sub-step fails the operation with the build step. -/
theorem spec_C4 (benv : BuildEnv) (cmd : String) :
    rmTrace benv = (if benv.nodeModulesExists then [Cmd.rmrf "node_modules"] else []) ∧
    ((buildProject benv cmd).2 = none →
      (buildProject benv cmd).1 = rmTrace benv ++ [Cmd.npmCi, Cmd.sh cmd]) ∧
    ((benv.nodeModulesExists = true → benv.rmExit = 0) → benv.ciExit ≠ 0 →
      (buildProject benv cmd).2 = some .install ∧
      (buildProject benv cmd).1 = rmTrace benv ++ [Cmd.npmCi]) ∧
    ((benv.nodeModulesExists = true → benv.rmExit = 0) → benv.ciExit = 0 → benv.buildExit ≠ 0 →
      (buildProject benv cmd).2 = some .build ∧
      (buildProject benv cmd).1 = rmTrace benv ++ [Cmd.npmCi, Cmd.sh cmd]) := by
  refine ⟨rfl, ?_⟩
  unfold buildProject
  split_ifs with h1 h2 h3
  · exact ⟨fun h => by simp at h, fun hrm hci => absurd (hrm h1.1) h1.2,
      fun hrm hci hb => absurd (hrm h1.1) h1.2⟩
  · exact ⟨fun h => by simp at h, fun _ _ => ⟨rfl, rfl⟩, fun _ hci _ => absurd hci h2⟩
  · exact ⟨fun h => by simp at h, fun _ hci => absurd hci h2, fun _ _ _ => ⟨rfl, rfl⟩⟩
  · exact ⟨fun _ => rfl, fun _ hci => absurd hci h2, fun _ _ hb => absurd hb h3⟩

theorem spec_C4_witness :
    (buildProject { nodeModulesExists := true, rmExit := 0, ciExit := 1, buildExit := 0 }
        "x").2 = some .install ∧
    (buildProject { nodeModulesExists := true, rmExit := 0, ciExit := 1, buildExit := 0 }
        "x").1 = [Cmd.rmrf "node_modules", Cmd.npmCi] := by
  have h := (spec_C4
    { nodeModulesExists := true, rmExit := 0, ciExit := 1, buildExit := 0 } "x").2.2.1
    (fun _ => rfl) (by decide)
  simpa [rmTrace] using h

/-- C5: when the artifact path does not exist after a successful build, the
measurement fails with the artifact-not-found error, the run aborts (no
report is written), and no result record is produced for that commit — the
recorded results are exactly those of the preceding commits. -/
theorem spec_C5 (env : Env) (cfg : Config) (cs1 : List String) (c : String) (cs2 : List String)
    (hconf : env.confirmed = true)
    (hsplit : truncateCommits cfg.commitLimit (getCommitList env) = cs1 ++ c :: cs2)
    (hok : ∀ x ∈ cs1, commitOk env cfg x)
    (hco : env.checkoutOk c = true)
    (hbuild : (buildProject (env.buildEnvAt c) cfg.buildCommand).2 = none)
    (hart : env.artifactSize c = none) :
    (run env cfg).error = some (.artifactNotFound cfg.zipPath c) ∧
    (run env cfg).results = cs1.map (resultOf env) ∧
    (run env cfg).wroteOutput = false := by
  unfold run
  rw [if_pos hconf, hsplit, evalLoop_ok_prefix env cfg cs1 hok (c :: cs2) env.branch [] []]
  simp only [evalLoop]
  rw [if_pos hco, hbuild]
  simp only []
  rw [hart]
  simp

theorem spec_C5_witness :
    (run envNoArtifact2 cfg0).error = some (.artifactNotFound "build.zip" "c2") ∧
    (run envNoArtifact2 cfg0).results = [resultOf envNoArtifact2 "c1"] ∧
    (run envNoArtifact2 cfg0).wroteOutput = false := by
  have h := spec_C5 envNoArtifact2 cfg0 ["c1"] "c2" ["c3"] (by decide) (by decide)
    (by decide) (by decide) (by decide) (by decide)
  simpa using h

/-- C6: with no version-control tool, listing commits returns the empty list as
a soft failure, and any run whose truncated commit list is empty is a valid
trivial run: it evaluates nothing, checks out no historical commit (the only
checkout is the final branch restoration), and still writes the (empty)
report with no error. -/
theorem spec_C6 (env : Env) (cfg : Config)
    (hconf : env.confirmed = true) (hbr : env.checkoutOk env.branch = true)
    (hempty : truncateCommits cfg.commitLimit (getCommitList env) = []) :
    getCommitList { env with gitAvailable := false } = [] ∧
    run env cfg = { results := [], finalRef := env.branch, checkouts := [env.branch],
                    error := none, wroteOutput := true } := by
  refine ⟨by simp [getCommitList], ?_⟩
  unfold run
  rw [if_pos hconf, hempty]
  simp only [evalLoop]
  rw [if_pos hbr]
  simp

theorem spec_C6_witness :
    getCommitList { envEmptyLog with gitAvailable := false } = [] ∧
    run envEmptyLog cfg0 = { results := [], finalRef := "main", checkouts := ["main"],
                             error := none, wroteOutput := true } := by
  have h := spec_C6 envEmptyLog cfg0 (by decide) (by decide) (by decide)
  exact ⟨h.1, by rw [h.2]; rfl⟩

/-- C7: the document written to output.json is the 2-space pretty-printed JSON
array of the result records in evaluation order, and parsing it back recovers
exactly the records, so the parsed sequence's length equals the evaluated
count and every buildSize field is a non-negative integer. -/
theorem spec_C7 (rs : List EvalResult) :
    toJsonDocument rs = stringifyPretty (encodeResults rs) ∧
    parseResults (toJsonDocument rs) = some rs ∧
    (parseResults (toJsonDocument rs)).map List.length = some rs.length ∧
    ∀ r ∈ rs, (0 : Int) ≤ (r.buildSize : Int) := by
  refine ⟨rfl, parseResults_toJsonDocument rs, ?_, ?_⟩
  · rw [parseResults_toJsonDocument rs]
    rfl
  · intro r hr
    exact Int.natCast_nonneg _

/-- C8: the report generator injects the COMMIT_DATA script assignment at the
very start of the document body and returns the template otherwise unchanged:
the output is the template's pre-body part, then the script, then the
template's body content and remainder, byte for byte. -/
theorem spec_C8 (template : HtmlDoc) (rs : List EvalResult) :
    generateReportFileContents template rs =
      template.beforeBody ++ (commitDataScript rs
        ++ (template.bodyInner ++ template.afterBody)) ∧
    commitDataScript rs =
      "<script>var COMMIT_DATA = JSON.parse(`" ++ stringifyCompact (encodeResults rs)
        ++ "`);</script>" := by
  refine ⟨?_, rfl⟩
  show template.beforeBody ++ ((commitDataScript rs ++ template.bodyInner)
    ++ template.afterBody) = _
  rw [String.append_assoc]

/-- C9: the emitted script splices the JSON serialization verbatim — no
escaping — into a JavaScript template literal passed to JSON.parse; when the
serialization contains no backtick, backslash or dollar-brace the embedded
value is exactly the serialized results, and there is a result sequence (a
commit message containing a backtick) for which the emitted script's value is
not the serialized results. -/
theorem spec_C9 :
    (∀ rs : List EvalResult, commitDataScript rs =
      "<script>var COMMIT_DATA = JSON.parse(`" ++ stringifyCompact (encodeResults rs)
        ++ "`);</script>") ∧
    (∀ rs : List EvalResult, tplSafe (stringifyCompact (encodeResults rs)) →
      commitDataValue rs = some rs) ∧
    commitDataValue badResults ≠ some badResults := by
  refine ⟨fun rs => rfl, ?_, ?_⟩
  · intro rs hsafe
    unfold commitDataValue
    obtain ⟨hs1, hs2, hs3⟩ := hsafe
    rw [templateCook_safe _ hs1 hs2 hs3]
    exact parseResults_compact rs
  · decide

set_option maxRecDepth 4000 in
theorem spec_C9_witness :
    commitDataValue [{ toCommitInfo := infoFor "c1", buildSize := 5 }]
      = some [{ toCommitInfo := infoFor "c1", buildSize := 5 }] :=
  spec_C9.2.1 _ (by decide)

/-- C10: a negative commitLimit -k is accepted without validation; splice with
a negative start keeps the first N-k commits — removing the k oldest from the
end of the newest-first list — and a fully successful run then records
max(N-k, 0) results (truncated subtraction) with no error. -/
theorem spec_C10 (env : Env) (cfg : Config) (k : Nat)
    (hk : cfg.commitLimit = -(k : Int)) (hkpos : 0 < k)
    (hconf : env.confirmed = true)
    (hok : ∀ c ∈ truncateCommits cfg.commitLimit (getCommitList env), commitOk env cfg c)
    (hbr : env.checkoutOk env.branch = true) :
    truncateCommits cfg.commitLimit (getCommitList env)
        = (getCommitList env).take ((getCommitList env).length - k) ∧
    (run env cfg).results.length = (getCommitList env).length - k ∧
    (run env cfg).error = none := by
  have htr : truncateCommits cfg.commitLimit (getCommitList env)
      = (getCommitList env).take ((getCommitList env).length - k) := by
    rw [hk, truncateCommits_neg _ (by omega)]
    congr 1
    omega
  refine ⟨htr, ?_, ?_⟩
  · rw [run_ok env cfg hconf hok hbr]
    simp only [List.length_map]
    rw [htr]
    simp only [List.length_take]
    omega
  · rw [run_ok env cfg hconf hok hbr]

theorem spec_C10_witness :
    (run envOk { cfg0 with commitLimit := -2 }).results.length = 1 ∧
    (run envOk { cfg0 with commitLimit := -2 }).error = none := by
  have h := spec_C10 envOk { cfg0 with commitLimit := -2 } 2 (by decide) (by decide)
    (by decide) (by decide) (by decide)
  exact ⟨by simpa using h.2.1, h.2.2⟩

end GraphBuilder
